import Mathlib

/-!
Shallow embedding of the alias-resolution core of ld-find-code-refs
(src/coderefs/alias.go) together with proofs of its specification claims.

External effects (glob expansion via doublestar, file existence and reads,
regular-expression matching via the Go regexp package, process execution and
JSON decoding, and the strcase case converters) are modelled as an explicit
environment of oracle functions; the control flow of alias.go itself is
translated function by function.  A Go runtime panic (regexp.MustCompile on a
bad pattern, dereference of a nil pointer) is a distinct outcome from an error
value returned to the caller, so results live in a three-way type.
-/

/-- Error values that alias.go returns to its caller (fmt.Errorf sites). -/
inductive AliasError where
  | globError : String → AliasError
  | missingFile : String → String → AliasError
  | fileRead : String → String → String → AliasError
  | commandExec : String → AliasError
  | commandOutput : String → AliasError
deriving DecidableEq, Repr

/-- Outcome of running a piece of alias.go: a returned value, a returned Go
error value, or a runtime panic (which unwinds without returning anything). -/
inductive GoResult (α : Type) where
  | ok : α → GoResult α
  | err : AliasError → GoResult α
  | goPanic : String → GoResult α
deriving DecidableEq, Repr

/-- Environment of external effects used by alias.go: doublestar globbing,
the file system, Go regexp matching (compilation may fail, in which case
regexp.MustCompile panics), process execution with optional timeout, JSON
decoding of a string array, and the strcase converters. -/
structure Env where
  glob : String → String → Except String (List String)
  fileExists : String → Bool
  readFile : String → Except String String
  regexCompile : String → Option (String → List (List String))
  runCommand : Option Int → String → List String → String → String → Except String String
  jsonUnmarshalStringList : String → Except String (List String)
  toLowerCamel : String → String
  toCamel : String → String
  toSnake : String → String
  toScreamingSnake : String → String
  toKebab : String → String
  toDelimited : String → Char → String

/-- The options.Alias configuration record handed to GenerateAliases. -/
structure Alias where
  type : String
  name : String := ""
  flags : List (String × List String) := []
  paths : List String := []
  patterns : List String := []
  command : Option String := none
  timeout : Option Int := none

/-- Lookup in a string-keyed association list (our model of a Go map, which
alias.go only ever reads by key and writes by key). -/
def lookupMap {α : Type} : List (String × α) → String → Option α
  | [], _ => none
  | (k, v) :: rest, key => if k = key then some v else lookupMap rest key

/-- Update-or-append write to a string-keyed association list. -/
def insertMap {α : Type} : List (String × α) → String → α → List (String × α)
  | [], key, v => [(key, v)]
  | (k, w) :: rest, key, v =>
    if k = key then (k, v) :: rest else (k, w) :: insertMap rest key v

/-- Modelled from the spec (helpers.Dedupe is not under src/): stable
deduplication worker keeping the first occurrence of each string not yet seen. -/
def dedupeAux (seen : List String) : List String → List String
  | [] => []
  | x :: rest => if x ∈ seen then dedupeAux seen rest else x :: dedupeAux (x :: seen) rest

/-- Modelled from the spec (helpers.Dedupe is not under src/): deduplicate a
list of strings, stable, first occurrence wins positionally. -/
def Dedupe (l : List String) : List String := dedupeAux [] l

/-- Strings already emitted after dedupeAux has walked a list. -/
def seenAfter (seen : List String) : List String → List String
  | [] => seen
  | x :: rest => if x ∈ seen then seenAfter seen rest else seenAfter (x :: seen) rest

/-- Modelled from the spec (options.AliasType.Canonical is not under src/):
rule types are matched case-insensitively against their canonical form. -/
def toLowerStr (s : String) : String := String.mk (s.data.map Char.toLower)

/-- Modelled from the spec: canonical form of a rule type string. -/
def canonicalType (t : String) : String := toLowerStr t

namespace options

/-- Modelled from the spec: canonical name of the literal rule type. -/
def Literal : String := "literal"

/-- Modelled from the spec: canonical name of the camelCase rule type. -/
def CamelCase : String := "camelcase"

/-- Modelled from the spec: canonical name of the PascalCase rule type. -/
def PascalCase : String := "pascalcase"

/-- Modelled from the spec: canonical name of the snake_case rule type. -/
def SnakeCase : String := "snake_case"

/-- Modelled from the spec: canonical name of the UPPER_SNAKE rule type. -/
def UpperSnakeCase : String := "upper_snake"

/-- Modelled from the spec: canonical name of the kebab-case rule type. -/
def KebabCase : String := "kebab-case"

/-- Modelled from the spec: canonical name of the dot.case rule type. -/
def DotCase : String := "dot.case"

/-- Modelled from the spec: canonical name of the file-pattern rule type. -/
def FilePattern : String := "file-pattern"

/-- Modelled from the spec: canonical name of the command rule type. -/
def Command : String := "command"

end options

/-- Character-level worker for strings.Split(s, " "): split at every single
space character, keeping empty fields, never returning an empty list. -/
def splitSpaceAux (cur : List Char) : List Char → List String
  | [] => [String.mk cur.reverse]
  | ch :: rest =>
    if ch = ' ' then String.mk cur.reverse :: splitSpaceAux [] rest
    else splitSpaceAux (ch :: cur) rest

/-- Model of Go strings.Split(s, " "). -/
def splitSpace (s : String) : List String := splitSpaceAux [] s.data

/-- Character-level worker for strings.ReplaceAll(s, "FLAG_KEY", repl):
replace every non-overlapping occurrence of the placeholder, left to right. -/
def replaceFlagKeyAux (repl : List Char) : List Char → List Char
  | 'F' :: 'L' :: 'A' :: 'G' :: '_' :: 'K' :: 'E' :: 'Y' :: rest =>
    repl ++ replaceFlagKeyAux repl rest
  | c :: rest => c :: replaceFlagKeyAux repl rest
  | [] => []

/-- Model of strings.ReplaceAll(p, "FLAG_KEY", flag) from alias.go. -/
def replaceFlagKey (flag p : String) : String :=
  String.mk (replaceFlagKeyAux flag.data p.data)

/-- Concatenation of a list of strings, left to right. -/
def joinAll : List String → String
  | [] => ""
  | s :: rest => s ++ joinAll rest

/-- Translation of globToAbsolutePaths (alias.go:45-58): doublestar.Glob over
DirFS(basepath), each match joined to the base path with a slash; a glob
failure becomes an error naming the offending pattern. -/
def globToAbsolutePaths (env : Env) (basepath pattern : String) : GoResult (List String) :=
  match env.glob basepath pattern with
  | .error _ => .err (.globError (basepath ++ "/" ++ pattern))
  | .ok ms => .ok (ms.map (fun m => basepath ++ "/" ++ m))

/-- Translation of the inner match loop of the FilePattern case
(alias.go:82-90): look up each matched path in the cache and append its
contents to the accumulating buffer when non-empty. -/
def appendContents (cache : List (String × String)) (buf : String) : List String → String
  | [] => buf
  | m :: rest =>
    let pathFileContents := (lookupMap cache m).getD ""
    if pathFileContents.length > 0 then appendContents cache (buf ++ pathFileContents) rest
    else appendContents cache buf rest

/-- Translation of the path loop of the FilePattern case (alias.go:79-91):
expand each glob of the rule in order and concatenate the cached contents of
its matches into one buffer; a glob failure aborts with an error. -/
def concatContents (env : Env) (dir : String) (cache : List (String × String))
    (buf : String) : List String → GoResult String
  | [] => .ok buf
  | g :: rest =>
    match globToAbsolutePaths env dir g with
    | .err e => .err e
    | .goPanic s => .goPanic s
    | .ok ms => concatContents env dir cache (appendContents cache buf ms) rest

/-- Translation of the result loop of the FilePattern case (alias.go:96-101):
each match with at least one capture group (submatch slice longer than one)
contributes its capture groups, never the whole match. -/
def collectSubmatches (acc : List String) : List (List String) → List String
  | [] => acc
  | res :: rest =>
    if 1 < res.length then collectSubmatches (acc ++ res.drop 1) rest
    else collectSubmatches acc rest

/-- Translation of the pattern loop of the FilePattern case (alias.go:94-102):
substitute FLAG_KEY, compile with regexp.MustCompile (a panic when the
substituted template is invalid), and collect every match's capture groups. -/
def extractAliases (env : Env) (flag buf : String) (acc : List String) :
    List String → GoResult (List String)
  | [] => .ok acc
  | p :: rest =>
    match env.regexCompile (replaceFlagKey flag p) with
    | none => .goPanic "regexp: Compile: error parsing regexp"
    | some findAll => extractAliases env flag buf (collectSubmatches acc (findAll buf)) rest

/-- Translation of generateAlias (alias.go:60-131): dispatch on the canonical
rule type; unrecognized types fall through the switch and return the empty
list with no error.  The nil-pointer dereference of a.Command in the Command
case (alias.go:110) is a Go runtime panic. -/
def generateAlias (env : Env) (a : Alias) (flag dir : String)
    (allFileContents : List (String × String)) : GoResult (List String) :=
  if canonicalType a.type = options.Literal then .ok ((lookupMap a.flags flag).getD [])
  else if canonicalType a.type = options.CamelCase then .ok [env.toLowerCamel flag]
  else if canonicalType a.type = options.PascalCase then .ok [env.toCamel flag]
  else if canonicalType a.type = options.SnakeCase then .ok [env.toSnake flag]
  else if canonicalType a.type = options.UpperSnakeCase then .ok [env.toScreamingSnake flag]
  else if canonicalType a.type = options.KebabCase then .ok [env.toKebab flag]
  else if canonicalType a.type = options.DotCase then .ok [env.toDelimited flag '.']
  else if canonicalType a.type = options.FilePattern then
    match concatContents env dir allFileContents "" a.paths with
    | .err e => .err e
    | .goPanic s => .goPanic s
    | .ok fileContents => extractAliases env flag fileContents [] a.patterns
  else if canonicalType a.type = options.Command then
    match a.command with
    | none => .goPanic "runtime error: invalid memory address or nil pointer dereference"
    | some c =>
      let effTimeout : Option Int :=
        match a.timeout with
        | some t => if 0 < t then some t else none
        | none => none
      let tokens := splitSpace c
      match env.runCommand effTimeout (tokens.headD "") (tokens.drop 1) dir flag with
      | .error e => .err (.commandExec e)
      | .ok stdout =>
        match env.jsonUnmarshalStringList stdout with
        | .error e => .err (.commandOutput e)
        | .ok v => .ok v
  else .ok []

/-- Translation of the glob loop of processFileContent (alias.go:147-155):
expand every glob of a file-pattern rule, wrapping glob failures with the
rule's diagnostic identifier. -/
def expandGlobs (env : Env) (dir aliasId : String) (acc : List String) :
    List String → GoResult (List String)
  | [] => .ok acc
  | g :: rest =>
    match globToAbsolutePaths env dir g with
    | .err _ => .err (.globError (aliasId ++ ": " ++ dir ++ "/" ++ g))
    | .goPanic s => .goPanic s
    | .ok ms => expandGlobs env dir aliasId (acc ++ ms) rest

/-- Translation of the read loop of processFileContent (alias.go:158-173):
paths already cached are skipped; otherwise existence is checked and the file
is read into the cache, failures naming the rule and the path. -/
def cacheFiles (env : Env) (aliasId : String) (cache : List (String × String)) :
    List String → GoResult (List (String × String))
  | [] => .ok cache
  | path :: rest =>
    if (lookupMap cache path).isSome then cacheFiles env aliasId cache rest
    else if env.fileExists path = false then .err (.missingFile aliasId path)
    else
      match env.readFile path with
      | .error msg => .err (.fileRead aliasId path msg)
      | .ok data => cacheFiles env aliasId (cache ++ [(path, data)]) rest

/-- Translation of the rule loop of processFileContent (alias.go:136-174):
only file-pattern rules contribute; the rule's diagnostic identifier is its
name when set, else its positional index; the per-rule path list is
deduplicated before the read loop runs. -/
def buildCache (env : Env) (dir : String) :
    Nat → List (String × String) → List Alias → GoResult (List (String × String))
  | _, cache, [] => .ok cache
  | idx, cache, a :: rest =>
    if canonicalType a.type ≠ options.FilePattern then buildCache env dir (idx + 1) cache rest
    else
      match expandGlobs env dir (if a.name ≠ "" then a.name else toString idx) [] a.paths with
      | .err e => .err e
      | .goPanic s => .goPanic s
      | .ok paths =>
        match cacheFiles env (if a.name ≠ "" then a.name else toString idx) cache
            (Dedupe paths) with
        | .err e => .err e
        | .goPanic s => .goPanic s
        | .ok cache' => buildCache env dir (idx + 1) cache' rest

/-- Translation of processFileContent (alias.go:133-176): build the file
content cache for every file-pattern rule, starting from the empty map. -/
def processFileContent (env : Env) (aliases : List Alias) (dir : String) :
    GoResult (List (String × String)) :=
  buildCache env dir 0 [] aliases

/-- Translation of the inner rule loop of GenerateAliases (alias.go:33-39):
dispatch every rule in configured order for one flag, appending each rule's
output to the flag's accumulating list; the first failure aborts. -/
def dispatchRules (env : Env) (flag dir : String) (cache : List (String × String))
    (acc : List String) : List Alias → GoResult (List String)
  | [] => .ok acc
  | a :: rest =>
    match generateAlias env a flag dir cache with
    | .err e => .err e
    | .goPanic s => .goPanic s
    | .ok flagAliases => dispatchRules env flag dir cache (acc ++ flagAliases) rest

/-- Translation of the flag loop of GenerateAliases (alias.go:32-41): process
each flag in turn, deduplicating its accumulated list before storing it. -/
def genLoop (env : Env) (rules : List Alias) (dir : String)
    (cache : List (String × String)) :
    List String → List (String × List String) → GoResult (List (String × List String))
  | [], ret => .ok ret
  | flag :: rest, ret =>
    match dispatchRules env flag dir cache ((lookupMap ret flag).getD []) rules with
    | .err e => .err e
    | .goPanic s => .goPanic s
    | .ok acc => genLoop env rules dir cache rest (insertMap ret flag (Dedupe acc))

/-- Translation of GenerateAliases (alias.go:25-43): build the file content
cache once, then resolve every flag against every rule. -/
def GenerateAliases (env : Env) (flags : List String) (aliases : List Alias)
    (dir : String) : GoResult (List (String × List String)) :=
  match processFileContent env aliases dir with
  | .err e => .err e
  | .goPanic s => .goPanic s
  | .ok allFileContents => genLoop env aliases dir allFileContents flags []

theorem mem_dedupeAux (a : String) (l : List String) : ∀ seen : List String,
    a ∈ dedupeAux seen l ↔ a ∈ l ∧ a ∉ seen := by
  induction l with
  | nil => intro seen; simp [dedupeAux]
  | cons x rest ih =>
    intro seen
    by_cases hx : x ∈ seen
    · rw [dedupeAux, if_pos hx, ih seen]
      constructor
      · rintro ⟨h1, h2⟩; exact ⟨List.mem_cons_of_mem x h1, h2⟩
      · rintro ⟨h1, h2⟩
        rcases List.mem_cons.mp h1 with h | h
        · exact absurd (h ▸ hx) h2
        · exact ⟨h, h2⟩
    · rw [dedupeAux, if_neg hx]
      constructor
      · intro hmem
        rcases List.mem_cons.mp hmem with h | h
        · subst h; exact ⟨List.mem_cons_self a rest, hx⟩
        · obtain ⟨h1, h2⟩ := (ih (x :: seen)).mp h
          exact ⟨List.mem_cons_of_mem x h1, fun hs => h2 (List.mem_cons_of_mem x hs)⟩
      · rintro ⟨h1, h2⟩
        rcases List.mem_cons.mp h1 with h | h
        · exact h ▸ List.mem_cons_self x _
        · by_cases hax : a = x
          · exact hax ▸ List.mem_cons_self x _
          · refine List.mem_cons_of_mem x ((ih (x :: seen)).mpr ⟨h, fun hs => ?_⟩)
            rcases List.mem_cons.mp hs with h3 | h3
            · exact hax h3
            · exact h2 h3

theorem nodup_dedupeAux (l : List String) : ∀ seen : List String,
    (dedupeAux seen l).Nodup := by
  induction l with
  | nil => intro seen; simp [dedupeAux]
  | cons x rest ih =>
    intro seen
    by_cases hx : x ∈ seen
    · rw [dedupeAux, if_pos hx]; exact ih seen
    · rw [dedupeAux, if_neg hx]
      refine List.nodup_cons.mpr ⟨fun hmem => ?_, ih (x :: seen)⟩
      exact ((mem_dedupeAux x rest (x :: seen)).mp hmem).2 (List.mem_cons_self x seen)

theorem dedupe_nodup (l : List String) : (Dedupe l).Nodup := nodup_dedupeAux l []

theorem mem_dedupe (a : String) (l : List String) : a ∈ Dedupe l ↔ a ∈ l := by
  rw [Dedupe, mem_dedupeAux]
  simp

theorem mem_seenAfter (a : String) (l : List String) : ∀ seen : List String,
    a ∈ seenAfter seen l ↔ a ∈ seen ∨ a ∈ l := by
  induction l with
  | nil => intro seen; simp [seenAfter]
  | cons x rest ih =>
    intro seen
    by_cases hx : x ∈ seen
    · rw [seenAfter, if_pos hx, ih seen]
      constructor
      · rintro (h | h)
        · exact Or.inl h
        · exact Or.inr (List.mem_cons_of_mem x h)
      · rintro (h | h)
        · exact Or.inl h
        · rcases List.mem_cons.mp h with h | h
          · exact Or.inl (h ▸ hx)
          · exact Or.inr h
    · rw [seenAfter, if_neg hx, ih (x :: seen)]
      simp only [List.mem_cons]
      tauto

theorem dedupeAux_append (l₁ : List String) : ∀ (seen l₂ : List String),
    dedupeAux seen (l₁ ++ l₂) = dedupeAux seen l₁ ++ dedupeAux (seenAfter seen l₁) l₂ := by
  induction l₁ with
  | nil => intro seen l₂; simp [dedupeAux, seenAfter]
  | cons x rest ih =>
    intro seen l₂
    by_cases hx : x ∈ seen
    · rw [List.cons_append, dedupeAux, if_pos hx, dedupeAux, if_pos hx, seenAfter, if_pos hx,
        ih seen l₂]
    · rw [List.cons_append, dedupeAux, if_neg hx, dedupeAux, if_neg hx, seenAfter, if_neg hx,
        ih (x :: seen) l₂, List.cons_append]

theorem dedupeAux_eq_nil (l : List String) : ∀ seen : List String,
    (∀ a ∈ l, a ∈ seen) → dedupeAux seen l = [] := by
  induction l with
  | nil => intro seen _; rfl
  | cons x rest ih =>
    intro seen h
    rw [dedupeAux, if_pos (h x (List.mem_cons_self x rest))]
    exact ih seen fun a ha => h a (List.mem_cons_of_mem x ha)

theorem dedupeAux_eq_self (l : List String) : ∀ seen : List String,
    l.Nodup → (∀ a ∈ l, a ∉ seen) → dedupeAux seen l = l := by
  induction l with
  | nil => intro seen _ _; rfl
  | cons x rest ih =>
    intro seen hnd hdisj
    rw [dedupeAux, if_neg (hdisj x (List.mem_cons_self x rest))]
    congr 1
    refine ih (x :: seen) (List.nodup_cons.mp hnd).2 fun a ha hmem => ?_
    rcases List.mem_cons.mp hmem with h | h
    · exact (List.nodup_cons.mp hnd).1 (h ▸ ha)
    · exact hdisj a (List.mem_cons_of_mem x ha) h

theorem dedupe_append_self (l : List String) : Dedupe (Dedupe l ++ l) = Dedupe l := by
  simp only [Dedupe]
  rw [dedupeAux_append]
  have h1 : dedupeAux [] (dedupeAux [] l) = dedupeAux [] l :=
    dedupeAux_eq_self (dedupeAux [] l) [] (nodup_dedupeAux l []) (by simp)
  have h2 : dedupeAux (seenAfter [] (dedupeAux [] l)) l = [] := by
    refine dedupeAux_eq_nil l _ fun a ha => ?_
    rw [mem_seenAfter]
    exact Or.inr ((mem_dedupeAux a l []).mpr ⟨ha, by simp⟩)
  rw [h1, h2, List.append_nil]

theorem lookupMap_insertMap_self {α : Type} (m : List (String × α)) (k : String) (v : α) :
    lookupMap (insertMap m k v) k = some v := by
  induction m with
  | nil => simp [insertMap, lookupMap]
  | cons p rest ih =>
    obtain ⟨k0, v0⟩ := p
    by_cases hk : k0 = k
    · rw [insertMap, if_pos hk, lookupMap, if_pos hk]
    · rw [insertMap, if_neg hk, lookupMap, if_neg hk]
      exact ih

theorem lookupMap_insertMap_ne {α : Type} (m : List (String × α)) (k k' : String) (v : α)
    (h : k' ≠ k) : lookupMap (insertMap m k v) k' = lookupMap m k' := by
  induction m with
  | nil => simp [insertMap, lookupMap, Ne.symm h]
  | cons p rest ih =>
    obtain ⟨k0, v0⟩ := p
    by_cases hk : k0 = k
    · subst hk
      rw [insertMap, if_pos rfl, lookupMap, lookupMap, if_neg, if_neg]
      · exact fun hk => h hk.symm
      · exact fun hk => h hk.symm
    · rw [insertMap, if_neg hk]
      by_cases hk' : k0 = k'
      · rw [lookupMap, if_pos hk', lookupMap, if_pos hk']
      · rw [lookupMap, if_neg hk', lookupMap, if_neg hk']
        exact ih

theorem lookupMap_isSome_iff {α : Type} (m : List (String × α)) (k : String) :
    (lookupMap m k).isSome = true ↔ k ∈ m.map Prod.fst := by
  induction m with
  | nil => simp [lookupMap]
  | cons p rest ih =>
    obtain ⟨k0, v0⟩ := p
    by_cases hk : k0 = k
    · subst hk
      simp [lookupMap]
    · rw [lookupMap, if_neg hk]
      simp only [List.map_cons, List.mem_cons, ih]
      constructor
      · exact fun h => Or.inr h
      · rintro (h | h)
        · exact absurd h.symm hk
        · exact h

theorem keys_insertMap {α : Type} (m : List (String × α)) (k : String) (v : α) :
    (insertMap m k v).map Prod.fst =
      if k ∈ m.map Prod.fst then m.map Prod.fst else m.map Prod.fst ++ [k] := by
  induction m with
  | nil => simp [insertMap]
  | cons p rest ih =>
    obtain ⟨k0, v0⟩ := p
    by_cases hk : k0 = k
    · subst hk
      simp [insertMap]
    · rw [insertMap, if_neg hk]
      by_cases hmem : k ∈ rest.map Prod.fst
      · simp only [List.map_cons, ih, if_pos hmem, List.mem_cons]
        rw [if_pos (Or.inr hmem)]
      · simp only [List.map_cons, ih, if_neg hmem, List.mem_cons]
        rw [if_neg]
        · simp
        · rintro (h | h)
          · exact hk h.symm
          · exact hmem h

theorem keys_insertMap_nodup {α : Type} (m : List (String × α)) (k : String) (v : α)
    (h : (m.map Prod.fst).Nodup) : ((insertMap m k v).map Prod.fst).Nodup := by
  rw [keys_insertMap]
  by_cases hmem : k ∈ m.map Prod.fst
  · rwa [if_pos hmem]
  · rw [if_neg hmem, List.nodup_append]
    refine ⟨h, List.nodup_singleton k, fun a ha hak => ?_⟩
    rw [List.mem_singleton] at hak
    exact hmem (hak ▸ ha)

theorem strAppend_data (a b : List Char) : String.mk a ++ String.mk b = String.mk (a ++ b) := rfl

theorem strAppend_assoc (s t u : String) : s ++ t ++ u = s ++ (t ++ u) := by
  obtain ⟨a⟩ := s
  obtain ⟨b⟩ := t
  obtain ⟨c⟩ := u
  rw [strAppend_data, strAppend_data, strAppend_data, strAppend_data, List.append_assoc]

theorem strAppend_empty (s : String) : s ++ "" = s := by
  obtain ⟨a⟩ := s
  rw [show ("" : String) = String.mk [] from rfl, strAppend_data, List.append_nil]

theorem empty_strAppend (s : String) : "" ++ s = s := by
  obtain ⟨a⟩ := s
  rw [show ("" : String) = String.mk [] from rfl, strAppend_data, List.nil_append]

theorem str_eq_empty_of_length_zero (s : String) (h : ¬ s.length > 0) : s = "" := by
  obtain ⟨a⟩ := s
  cases a with
  | nil => rfl
  | cons c rest => exact absurd (by simp [String.length]) h

/-- Per-rule outputs of one flag, in configured rule order: the list of lists
that the inner loop of GenerateAliases concatenates for that flag. -/
def ruleOutputs (env : Env) (flag dir : String) (cache : List (String × String)) :
    List Alias → GoResult (List (List String))
  | [] => .ok []
  | a :: rest =>
    match generateAlias env a flag dir cache with
    | .err e => .err e
    | .goPanic s => .goPanic s
    | .ok xs =>
      match ruleOutputs env flag dir cache rest with
      | .err e => .err e
      | .goPanic s => .goPanic s
      | .ok outs => .ok (xs :: outs)

theorem dispatchRules_eq (env : Env) (flag dir : String) (cache : List (String × String))
    (rules : List Alias) : ∀ acc : List String,
    dispatchRules env flag dir cache acc rules =
      match ruleOutputs env flag dir cache rules with
      | .ok outs => .ok (acc ++ outs.flatten)
      | .err e => .err e
      | .goPanic s => .goPanic s := by
  induction rules with
  | nil => intro acc; simp [dispatchRules, ruleOutputs]
  | cons a rest ih =>
    intro acc
    rw [dispatchRules, ruleOutputs]
    cases generateAlias env a flag dir cache with
    | err e => rfl
    | goPanic s => rfl
    | ok xs =>
      dsimp only
      rw [ih (acc ++ xs)]
      cases ruleOutputs env flag dir cache rest with
      | err e => rfl
      | goPanic s => rfl
      | ok outs => dsimp only; rw [List.flatten_cons, List.append_assoc]

theorem ruleOutputs_ok_each (env : Env) (flag dir : String) (cache : List (String × String)) :
    ∀ (rules : List Alias) (outs : List (List String)),
    ruleOutputs env flag dir cache rules = .ok outs →
    ∀ a ∈ rules, ∃ xs, generateAlias env a flag dir cache = .ok xs := by
  intro rules
  induction rules with
  | nil => intro outs _ a ha; exact absurd ha (List.not_mem_nil a)
  | cons r rest ih =>
    intro outs h a ha
    rw [ruleOutputs] at h
    cases hg : generateAlias env r flag dir cache with
    | err e => rw [hg] at h; exact absurd h (by simp)
    | goPanic s => rw [hg] at h; exact absurd h (by simp)
    | ok xs =>
      rw [hg] at h
      cases hrest : ruleOutputs env flag dir cache rest with
      | err e => rw [hrest] at h; exact absurd h (by simp)
      | goPanic s => rw [hrest] at h; exact absurd h (by simp)
      | ok outs' =>
        rcases List.mem_cons.mp ha with h1 | h1
        · exact ⟨xs, h1 ▸ hg⟩
        · exact ih outs' hrest a h1

theorem ruleOutputs_err_exists (env : Env) (flag dir : String)
    (cache : List (String × String)) : ∀ (rules : List Alias) (e : AliasError),
    ruleOutputs env flag dir cache rules = .err e →
    ∃ a ∈ rules, generateAlias env a flag dir cache = .err e := by
  intro rules
  induction rules with
  | nil => intro e h; exact absurd h (by simp [ruleOutputs])
  | cons r rest ih =>
    intro e h
    rw [ruleOutputs] at h
    cases hg : generateAlias env r flag dir cache with
    | err e' =>
      rw [hg] at h
      cases h
      exact ⟨r, List.mem_cons_self r rest, hg⟩
    | goPanic s => rw [hg] at h; exact absurd h (by simp)
    | ok xs =>
      rw [hg] at h
      cases hrest : ruleOutputs env flag dir cache rest with
      | err e' =>
        rw [hrest] at h
        cases h
        obtain ⟨a, ha, hga⟩ := ih e hrest
        exact ⟨a, List.mem_cons_of_mem r ha, hga⟩
      | goPanic s => rw [hrest] at h; exact absurd h (by simp)
      | ok outs' => rw [hrest] at h; exact absurd h (by simp)

theorem genLoop_nil (env : Env) (rules : List Alias) (dir : String)
    (cache : List (String × String)) (ret : List (String × List String)) :
    genLoop env rules dir cache [] ret = .ok ret := rfl

theorem genLoop_cons (env : Env) (rules : List Alias) (dir : String)
    (cache : List (String × String)) (f : String) (rest : List String)
    (ret : List (String × List String)) :
    genLoop env rules dir cache (f :: rest) ret =
      match dispatchRules env f dir cache ((lookupMap ret f).getD []) rules with
      | .err e => .err e
      | .goPanic s => .goPanic s
      | .ok acc => genLoop env rules dir cache rest (insertMap ret f (Dedupe acc)) := rfl

theorem genLoop_entry (env : Env) (rules : List Alias) (dir : String)
    (cache : List (String × String)) : ∀ (fs : List String)
    (ret m : List (String × List String)),
    genLoop env rules dir cache fs ret = .ok m →
    (∀ flag, lookupMap ret flag = none ∨
      ∃ outs, ruleOutputs env flag dir cache rules = .ok outs ∧
        lookupMap ret flag = some (Dedupe outs.flatten)) →
    ∀ flag, (flag ∈ fs ∨ (lookupMap ret flag).isSome = true) →
      ∃ outs, ruleOutputs env flag dir cache rules = .ok outs ∧
        lookupMap m flag = some (Dedupe outs.flatten) := by
  intro fs
  induction fs with
  | nil =>
    intro ret m h hinv flag hflag
    rw [genLoop_nil] at h
    cases h
    rcases hflag with hflag | hflag
    · exact absurd hflag (List.not_mem_nil flag)
    · rcases hinv flag with hnone | hsome
      · rw [hnone] at hflag; simp at hflag
      · exact hsome
  | cons f rest ih =>
    intro ret m h hinv flag hflag
    rw [genLoop_cons] at h
    rw [dispatchRules_eq] at h
    cases hro : ruleOutputs env f dir cache rules with
    | err e => rw [hro] at h; exact absurd h (by simp)
    | goPanic s => rw [hro] at h; exact absurd h (by simp)
    | ok outsF =>
      rw [hro] at h
      dsimp only at h
      set acc := (lookupMap ret f).getD [] ++ outsF.flatten with hacc
      have hde : Dedupe acc = Dedupe outsF.flatten := by
        rcases hinv f with hnone | ⟨outs', hro', hlk⟩
        · rw [hacc, hnone, Option.getD_none, List.nil_append]
        · rw [hro'] at hro
          cases hro
          rw [hacc, hlk, Option.getD_some]
          exact dedupe_append_self _
      have hinv' : ∀ flag', lookupMap (insertMap ret f (Dedupe acc)) flag' = none ∨
          ∃ outs, ruleOutputs env flag' dir cache rules = .ok outs ∧
            lookupMap (insertMap ret f (Dedupe acc)) flag' = some (Dedupe outs.flatten) := by
        intro flag'
        by_cases hf : flag' = f
        · subst hf
          refine Or.inr ⟨outsF, hro, ?_⟩
          rw [lookupMap_insertMap_self, hde]
        · rw [lookupMap_insertMap_ne ret f flag' _ hf]
          exact hinv flag'
      refine ih (insertMap ret f (Dedupe acc)) m h hinv' flag ?_
      by_cases hf : flag = f
      · subst hf
        refine Or.inr ?_
        rw [lookupMap_insertMap_self]
        rfl
      · rcases hflag with hflag | hflag
        · rcases List.mem_cons.mp hflag with h1 | h1
          · exact absurd h1 hf
          · exact Or.inl h1
        · refine Or.inr ?_
          rw [lookupMap_insertMap_ne ret f flag _ hf]
          exact hflag

theorem genLoop_isSome (env : Env) (rules : List Alias) (dir : String)
    (cache : List (String × String)) : ∀ (fs : List String)
    (ret m : List (String × List String)),
    genLoop env rules dir cache fs ret = .ok m →
    ∀ flag, (lookupMap m flag).isSome = true ↔
      flag ∈ fs ∨ (lookupMap ret flag).isSome = true := by
  intro fs
  induction fs with
  | nil =>
    intro ret m h flag
    rw [genLoop_nil] at h
    cases h
    simp
  | cons f rest ih =>
    intro ret m h flag
    rw [genLoop_cons] at h
    cases hd : dispatchRules env f dir cache ((lookupMap ret f).getD []) rules with
    | err e => rw [hd] at h; exact absurd h (by simp)
    | goPanic s => rw [hd] at h; exact absurd h (by simp)
    | ok acc =>
      rw [hd] at h
      dsimp only at h
      rw [ih _ m h flag]
      by_cases hf : flag = f
      · subst hf
        rw [lookupMap_insertMap_self]
        simp
      · rw [lookupMap_insertMap_ne ret f flag _ hf]
        simp only [List.mem_cons]
        constructor
        · rintro (h1 | h1)
          · exact Or.inl (Or.inr h1)
          · exact Or.inr h1
        · rintro (h1 | h1)
          · rcases h1 with h1 | h1
            · exact absurd h1 hf
            · exact Or.inl h1
          · exact Or.inr h1

theorem genLoop_keys_nodup (env : Env) (rules : List Alias) (dir : String)
    (cache : List (String × String)) : ∀ (fs : List String)
    (ret m : List (String × List String)),
    genLoop env rules dir cache fs ret = .ok m →
    (ret.map Prod.fst).Nodup → (m.map Prod.fst).Nodup := by
  intro fs
  induction fs with
  | nil =>
    intro ret m h hnd
    rw [genLoop_nil] at h
    cases h
    exact hnd
  | cons f rest ih =>
    intro ret m h hnd
    rw [genLoop_cons] at h
    cases hd : dispatchRules env f dir cache ((lookupMap ret f).getD []) rules with
    | err e => rw [hd] at h; exact absurd h (by simp)
    | goPanic s => rw [hd] at h; exact absurd h (by simp)
    | ok acc =>
      rw [hd] at h
      dsimp only at h
      exact ih _ m h (keys_insertMap_nodup ret f _ hnd)

theorem genLoop_values_nodup (env : Env) (rules : List Alias) (dir : String)
    (cache : List (String × String)) : ∀ (fs : List String)
    (ret m : List (String × List String)),
    genLoop env rules dir cache fs ret = .ok m →
    (∀ flag xs, lookupMap ret flag = some xs → xs.Nodup) →
    ∀ flag xs, lookupMap m flag = some xs → xs.Nodup := by
  intro fs
  induction fs with
  | nil =>
    intro ret m h hval
    rw [genLoop_nil] at h
    cases h
    exact hval
  | cons f rest ih =>
    intro ret m h hval
    rw [genLoop_cons] at h
    cases hd : dispatchRules env f dir cache ((lookupMap ret f).getD []) rules with
    | err e => rw [hd] at h; exact absurd h (by simp)
    | goPanic s => rw [hd] at h; exact absurd h (by simp)
    | ok acc =>
      rw [hd] at h
      dsimp only at h
      refine ih _ m h fun flag xs hlk => ?_
      by_cases hf : flag = f
      · subst hf
        rw [lookupMap_insertMap_self] at hlk
        cases hlk
        exact dedupe_nodup acc
      · rw [lookupMap_insertMap_ne ret f flag _ hf] at hlk
        exact hval flag xs hlk

theorem genLoop_err_exists (env : Env) (rules : List Alias) (dir : String)
    (cache : List (String × String)) : ∀ (fs : List String)
    (ret : List (String × List String)) (e : AliasError),
    genLoop env rules dir cache fs ret = .err e →
    ∃ flag ∈ fs, ∃ a ∈ rules, generateAlias env a flag dir cache = .err e := by
  intro fs
  induction fs with
  | nil =>
    intro ret e h
    rw [genLoop_nil] at h
    exact absurd h (by simp)
  | cons f rest ih =>
    intro ret e h
    rw [genLoop_cons] at h
    cases hd : dispatchRules env f dir cache ((lookupMap ret f).getD []) rules with
    | err e' =>
      rw [hd] at h
      dsimp only at h
      cases h
      rw [dispatchRules_eq] at hd
      cases hro : ruleOutputs env f dir cache rules with
      | err e'' =>
        rw [hro] at hd
        dsimp only at hd
        cases hd
        obtain ⟨a, ha, hga⟩ := ruleOutputs_err_exists env f dir cache rules e hro
        exact ⟨f, List.mem_cons_self f rest, a, ha, hga⟩
      | goPanic s => rw [hro] at hd; exact absurd hd (by simp)
      | ok outs => rw [hro] at hd; exact absurd hd (by simp)
    | goPanic s => rw [hd] at h; exact absurd h (by simp)
    | ok acc =>
      rw [hd] at h
      dsimp only at h
      obtain ⟨flag, hflag, a, ha, hga⟩ := ih _ e h
      exact ⟨flag, List.mem_cons_of_mem f hflag, a, ha, hga⟩

/-- Nodup is preserved by appending one fresh element. -/
theorem nodup_append_singleton {α : Type} (l : List α) (a : α) (h : l.Nodup) (ha : a ∉ l) :
    (l ++ [a]).Nodup := by
  rw [List.nodup_append]
  refine ⟨h, List.nodup_singleton a, fun x hx hxa => ?_⟩
  rw [List.mem_singleton] at hxa
  exact ha (hxa ▸ hx)

/-- Instrumented twin of cacheFiles that additionally records, as a ghost
trace, every path on which the existence check and file read are performed;
the executable behaviour is unchanged. -/
def cacheFilesTraced (env : Env) (aliasId : String) (cache : List (String × String))
    (tr : List String) : List String → GoResult (List (String × String) × List String)
  | [] => .ok (cache, tr)
  | path :: rest =>
    if (lookupMap cache path).isSome then cacheFilesTraced env aliasId cache tr rest
    else if env.fileExists path = false then .err (.missingFile aliasId path)
    else
      match env.readFile path with
      | .error msg => .err (.fileRead aliasId path msg)
      | .ok data => cacheFilesTraced env aliasId (cache ++ [(path, data)]) (tr ++ [path]) rest

/-- Instrumented twin of buildCache threading the ghost read trace. -/
def buildCacheTraced (env : Env) (dir : String) :
    Nat → List (String × String) → List String → List Alias →
      GoResult (List (String × String) × List String)
  | _, cache, tr, [] => .ok (cache, tr)
  | idx, cache, tr, a :: rest =>
    if canonicalType a.type ≠ options.FilePattern then
      buildCacheTraced env dir (idx + 1) cache tr rest
    else
      match expandGlobs env dir (if a.name ≠ "" then a.name else toString idx) [] a.paths with
      | .err e => .err e
      | .goPanic s => .goPanic s
      | .ok paths =>
        match cacheFilesTraced env (if a.name ≠ "" then a.name else toString idx) cache tr
            (Dedupe paths) with
        | .err e => .err e
        | .goPanic s => .goPanic s
        | .ok ct => buildCacheTraced env dir (idx + 1) ct.1 ct.2 rest

/-- Instrumented twin of processFileContent recording the paths read. -/
def processFileContentTraced (env : Env) (aliases : List Alias) (dir : String) :
    GoResult (List (String × String) × List String) :=
  buildCacheTraced env dir 0 [] [] aliases

theorem cacheFilesTraced_spec (env : Env) (aliasId : String) : ∀ (paths : List String)
    (cache : List (String × String)) (tr : List String)
    (c : List (String × String)) (tr' : List String),
    cacheFilesTraced env aliasId cache tr paths = .ok (c, tr') →
    tr = cache.map Prod.fst →
    (cache.map Prod.fst).Nodup →
    (∀ p d, (p, d) ∈ cache → env.readFile p = .ok d) →
    cacheFiles env aliasId cache paths = .ok c ∧ tr' = c.map Prod.fst ∧
      (c.map Prod.fst).Nodup ∧ ∀ p d, (p, d) ∈ c → env.readFile p = .ok d := by
  intro paths
  induction paths with
  | nil =>
    intro cache tr c tr' h htr hnd hrd
    rw [cacheFilesTraced] at h
    cases h
    exact ⟨rfl, htr, hnd, hrd⟩
  | cons path rest ih =>
    intro cache tr c tr' h htr hnd hrd
    rw [cacheFilesTraced] at h
    rw [cacheFiles]
    by_cases hin : (lookupMap cache path).isSome = true
    · rw [if_pos hin] at h
      rw [if_pos hin]
      exact ih cache tr c tr' h htr hnd hrd
    · rw [if_neg hin] at h
      rw [if_neg hin]
      by_cases hex : env.fileExists path = false
      · rw [if_pos hex] at h
        exact absurd h (by simp)
      · rw [if_neg hex] at h
        rw [if_neg hex]
        cases hr : env.readFile path with
        | error msg => rw [hr] at h; exact absurd h (by simp)
        | ok data =>
          rw [hr] at h
          dsimp only at h
          have hmem : path ∉ cache.map Prod.fst := by
            intro hc
            exact hin ((lookupMap_isSome_iff cache path).mpr hc)
          refine ih (cache ++ [(path, data)]) (tr ++ [path]) c tr' h ?_ ?_ ?_
          · rw [List.map_append, htr]; rfl
          · rw [List.map_append]
            exact nodup_append_singleton _ path hnd hmem
          · intro p d hpd
            rcases List.mem_append.mp hpd with hpd | hpd
            · exact hrd p d hpd
            · rw [List.mem_singleton] at hpd
              cases hpd
              exact hr

theorem buildCacheTraced_spec (env : Env) (dir : String) : ∀ (aliases : List Alias)
    (idx : Nat) (cache : List (String × String)) (tr : List String)
    (c : List (String × String)) (tr' : List String),
    buildCacheTraced env dir idx cache tr aliases = .ok (c, tr') →
    tr = cache.map Prod.fst →
    (cache.map Prod.fst).Nodup →
    (∀ p d, (p, d) ∈ cache → env.readFile p = .ok d) →
    buildCache env dir idx cache aliases = .ok c ∧ tr' = c.map Prod.fst ∧
      (c.map Prod.fst).Nodup ∧ ∀ p d, (p, d) ∈ c → env.readFile p = .ok d := by
  intro aliases
  induction aliases with
  | nil =>
    intro idx cache tr c tr' h htr hnd hrd
    rw [buildCacheTraced] at h
    cases h
    exact ⟨rfl, htr, hnd, hrd⟩
  | cons a rest ih =>
    intro idx cache tr c tr' h htr hnd hrd
    rw [buildCacheTraced] at h
    rw [buildCache]
    by_cases hty : canonicalType a.type ≠ options.FilePattern
    · rw [if_pos hty] at h
      rw [if_pos hty]
      exact ih (idx + 1) cache tr c tr' h htr hnd hrd
    · rw [if_neg hty] at h
      rw [if_neg hty]
      cases hg : expandGlobs env dir (if a.name ≠ "" then a.name else toString idx) [] a.paths with
      | err e => rw [hg] at h; exact absurd h (by simp)
      | goPanic s => rw [hg] at h; exact absurd h (by simp)
      | ok paths =>
        rw [hg] at h
        dsimp only at h
        dsimp only
        cases hcf : cacheFilesTraced env (if a.name ≠ "" then a.name else toString idx)
            cache tr (Dedupe paths) with
        | err e => rw [hcf] at h; exact absurd h (by simp)
        | goPanic s => rw [hcf] at h; exact absurd h (by simp)
        | ok ct =>
          rw [hcf] at h
          dsimp only at h
          obtain ⟨hcf', htr', hnd', hrd'⟩ :=
            cacheFilesTraced_spec env _ (Dedupe paths) cache tr ct.1 ct.2 hcf htr hnd hrd
          rw [hcf']
          dsimp only
          exact ih (idx + 1) ct.1 ct.2 c tr' h htr' hnd' hrd'

theorem appendContents_eq (cache : List (String × String)) : ∀ (ms : List String)
    (buf : String), appendContents cache buf ms =
      buf ++ joinAll (ms.map fun m => (lookupMap cache m).getD "") := by
  intro ms
  induction ms with
  | nil => intro buf; rw [appendContents, List.map_nil, joinAll, strAppend_empty]
  | cons m rest ih =>
    intro buf
    rw [appendContents, List.map_cons, joinAll]
    by_cases hc : ((lookupMap cache m).getD "").length > 0
    · rw [if_pos hc, ih (buf ++ (lookupMap cache m).getD ""), strAppend_assoc]
    · rw [if_neg hc, ih buf, str_eq_empty_of_length_zero _ hc, empty_strAppend]

/-- The absolute paths that one glob pattern of a rule expands to, in the
glob matcher's order (empty when the glob fails). -/
def globAbsOf (env : Env) (dir g : String) : List String :=
  match env.glob dir g with
  | .error _ => []
  | .ok ms => ms.map fun m => dir ++ "/" ++ m

/-- Follows the spec's words (4.4(1)): per glob pattern, in glob-match order
and without deduplication at this stage, the cached contents of every matched
path (missing or empty cache entries contributing nothing) concatenated into
a single buffer. -/
def concatBufferSpec (env : Env) (dir : String) (cache : List (String × String))
    (paths : List String) : String :=
  joinAll (paths.map fun g => joinAll ((globAbsOf env dir g).map fun m =>
    (lookupMap cache m).getD ""))

theorem concatContents_eq (env : Env) (dir : String) (cache : List (String × String)) :
    ∀ (paths : List String) (buf : String),
    (∀ g ∈ paths, ∃ ms, env.glob dir g = Except.ok ms) →
    concatContents env dir cache buf paths = .ok (buf ++ concatBufferSpec env dir cache paths) := by
  intro paths
  induction paths with
  | nil =>
    intro buf _
    rw [concatContents, concatBufferSpec, List.map_nil, joinAll, strAppend_empty]
  | cons g rest ih =>
    intro buf hg
    obtain ⟨ms, hms⟩ := hg g (List.mem_cons_self g rest)
    rw [concatContents, globToAbsolutePaths, hms]
    dsimp only
    rw [appendContents_eq, ih _ fun g' hg' => hg g' (List.mem_cons_of_mem g hg')]
    simp only [concatBufferSpec, List.map_cons, joinAll, globAbsOf, hms]
    rw [strAppend_assoc]

theorem collectSubmatches_acc : ∀ (ms : List (List String)) (acc : List String),
    collectSubmatches acc ms = acc ++ collectSubmatches [] ms := by
  intro ms
  induction ms with
  | nil => intro acc; rw [collectSubmatches, collectSubmatches, List.append_nil]
  | cons res rest ih =>
    intro acc
    by_cases hres : 1 < res.length
    · rw [collectSubmatches, if_pos hres, collectSubmatches, if_pos hres]
      rw [ih (acc ++ res.drop 1), List.nil_append, ih (res.drop 1), List.append_assoc]
    · rw [collectSubmatches, if_neg hres, collectSubmatches, if_neg hres, ih acc]

theorem collectSubmatches_eq : ∀ ms : List (List String),
    collectSubmatches [] ms =
      (ms.map fun res => if 1 < res.length then res.drop 1 else []).flatten := by
  intro ms
  induction ms with
  | nil => rfl
  | cons res rest ih =>
    by_cases hres : 1 < res.length
    · rw [collectSubmatches, if_pos hres, collectSubmatches_acc rest, List.nil_append, ih,
        List.map_cons, if_pos hres, List.flatten_cons]
    · rw [collectSubmatches, if_neg hres, ih, List.map_cons, if_neg hres, List.flatten_cons,
        List.nil_append]

/-- The submatch lists that the compiled form of one pattern template, with
FLAG_KEY substituted, produces on a buffer (empty when compilation fails). -/
def matchesFor (env : Env) (flag buf p : String) : List (List String) :=
  ((env.regexCompile (replaceFlagKey flag p)).getD (fun _ => [])) buf

/-- Follows the spec's words (4.4(3)): every match with at least one capture
group contributes all of its capture groups and never the whole match, in
match order within a pattern and then in pattern order; a match without
capture groups contributes nothing. -/
def captureGroupsSpec (allMatches : List (List (List String))) : List String :=
  (allMatches.map fun ms =>
    (ms.map fun res => if 1 < res.length then res.drop 1 else []).flatten).flatten

theorem extractAliases_ok (env : Env) (flag buf : String) : ∀ (ps : List String)
    (acc : List String),
    (∀ p ∈ ps, (env.regexCompile (replaceFlagKey flag p)).isSome = true) →
    extractAliases env flag buf acc ps =
      .ok (acc ++ captureGroupsSpec (ps.map fun p => matchesFor env flag buf p)) := by
  intro ps
  induction ps with
  | nil =>
    intro acc _
    rw [extractAliases, captureGroupsSpec, List.map_nil, List.map_nil, List.flatten_nil,
      List.append_nil]
  | cons p rest ih =>
    intro acc hall
    obtain ⟨f, hf⟩ := Option.isSome_iff_exists.mp (hall p (List.mem_cons_self p rest))
    rw [extractAliases, hf]
    dsimp only
    rw [ih _ fun p' hp' => hall p' (List.mem_cons_of_mem p hp')]
    rw [collectSubmatches_acc]
    simp only [captureGroupsSpec, matchesFor, hf, Option.getD_some, List.map_cons,
      List.flatten_cons, collectSubmatches_eq, List.append_assoc]

theorem extractAliases_panics (env : Env) (flag buf : String) : ∀ (ps : List String)
    (acc : List String),
    (∃ p ∈ ps, env.regexCompile (replaceFlagKey flag p) = none) →
    ∃ s, extractAliases env flag buf acc ps = .goPanic s := by
  intro ps
  induction ps with
  | nil =>
    intro acc h
    obtain ⟨p, hp, _⟩ := h
    exact absurd hp (List.not_mem_nil p)
  | cons p rest ih =>
    intro acc h
    cases hc : env.regexCompile (replaceFlagKey flag p) with
    | none => exact ⟨"regexp: Compile: error parsing regexp", by rw [extractAliases, hc]⟩
    | some f =>
      obtain ⟨p', hp', hnone⟩ := h
      rcases List.mem_cons.mp hp' with h1 | h1
      · rw [h1] at hnone
        rw [hnone] at hc
        exact absurd hc (by simp)
      · obtain ⟨s, hs⟩ := ih (collectSubmatches acc (f buf)) ⟨p', h1, hnone⟩
        refine ⟨s, ?_⟩
        rw [extractAliases, hc]
        exact hs

theorem splitSpaceAux_shape : ∀ (l cur : List Char),
    ∃ h t, splitSpaceAux cur l = h :: t := by
  intro l
  induction l with
  | nil => intro cur; exact ⟨String.mk cur.reverse, [], rfl⟩
  | cons ch rest ih =>
    intro cur
    by_cases hch : ch = ' '
    · exact ⟨String.mk cur.reverse, splitSpaceAux [] rest, by rw [splitSpaceAux, if_pos hch]⟩
    · obtain ⟨h, t, hht⟩ := ih (ch :: cur)
      exact ⟨h, t, by rw [splitSpaceAux, if_neg hch]; exact hht⟩

theorem splitSpace_shape (s : String) : ∃ h t, splitSpace s = h :: t :=
  splitSpaceAux_shape s.data []

theorem generateAlias_filePattern (env : Env) (a : Alias) (flag dir : String)
    (cache : List (String × String)) (h : canonicalType a.type = options.FilePattern) :
    generateAlias env a flag dir cache =
      match concatContents env dir cache "" a.paths with
      | .err e => .err e
      | .goPanic s => .goPanic s
      | .ok buf => extractAliases env flag buf [] a.patterns := by
  unfold generateAlias
  rw [h]
  rw [if_neg (by decide), if_neg (by decide), if_neg (by decide), if_neg (by decide),
    if_neg (by decide), if_neg (by decide), if_neg (by decide), if_pos rfl]

/-- Follows the spec's words (4.5): the argument vector is the whitespace
split of the command string, first token the executable and the remaining
tokens the arguments, with no shell quoting or escaping interpreted; the
process runs in the base directory with the flag key written to its standard
input, a configured positive timeout bounds it, and its standard output must
decode as a JSON array of strings. -/
def commandInvokerSpec (env : Env) (timeout : Option Int) (c flag dir : String) :
    GoResult (List String) :=
  match splitSpace c with
  | [] => .ok []
  | nm :: args =>
    match env.runCommand
        (match timeout with
         | some t => if 0 < t then some t else none
         | none => none) nm args dir flag with
    | .error e => .err (.commandExec e)
    | .ok out =>
      match env.jsonUnmarshalStringList out with
      | .error e => .err (.commandOutput e)
      | .ok v => .ok v

/-- C8: for every command rule with a present command string, generateAlias
behaves exactly as the spec's command invoker: the argument vector is the
whitespace split of the command string (split at each single space character,
Go strings.Split with a one-space separator) with the first token the
executable and the remaining tokens the arguments, no shell quoting or
escaping interpreted, and the process is run in the base directory with the
flag key written to its standard input. -/
theorem generateAlias_command (env : Env) (a : Alias) (flag dir : String)
    (cache : List (String × String)) (c : String)
    (h : canonicalType a.type = options.Command) (hc : a.command = some c) :
    generateAlias env a flag dir cache = commandInvokerSpec env a.timeout c flag dir := by
  unfold generateAlias
  rw [h]
  rw [if_neg (by decide), if_neg (by decide), if_neg (by decide), if_neg (by decide),
    if_neg (by decide), if_neg (by decide), if_neg (by decide), if_neg (by decide),
    if_pos rfl, hc]
  obtain ⟨nm, args, hsp⟩ := splitSpace_shape c
  rw [commandInvokerSpec.eq_def, hsp]
  dsimp only
  rw [hsp]
  dsimp only [List.headD, List.drop]

theorem dispatchRules_cons (env : Env) (flag dir : String) (cache : List (String × String))
    (acc : List String) (a : Alias) (rest : List Alias) :
    dispatchRules env flag dir cache acc (a :: rest) =
      match generateAlias env a flag dir cache with
      | .err e => .err e
      | .goPanic s => .goPanic s
      | .ok flagAliases => dispatchRules env flag dir cache (acc ++ flagAliases) rest := rfl

/-- Inert environment used as the base of the concrete test fixtures. -/
def envZero : Env where
  glob := fun _ _ => Except.ok []
  fileExists := fun _ => false
  readFile := fun _ => Except.error "unreadable"
  regexCompile := fun _ => some fun _ => []
  runCommand := fun _ _ _ _ _ => Except.error "exec failed"
  jsonUnmarshalStringList := fun _ => Except.error "bad json"
  toLowerCamel := fun s => s
  toCamel := fun s => s
  toSnake := fun s => s
  toScreamingSnake := fun s => s
  toKebab := fun s => s
  toDelimited := fun s _ => s

/-- Environment for the driver fixtures: a distinguishable camelCase oracle. -/
def envC1 : Env := { envZero with toLowerCamel := fun s => "lc" ++ s }

/-- Rule list for the driver fixtures: a literal rule with a repeated entry
followed by a camelCase rule. -/
def rulesC1 : List Alias :=
  [{ type := "literal", flags := [("f", ["a", "b", "a"])] }, { type := "camelCase" }]

/-- Expected result mapping of the driver fixtures. -/
def mC1 : List (String × List String) := [("f", ["a", "b", "lcf"])]

/-- C1: for every flag list, rule list and base directory, a successful
GenerateAliases first builds the file content cache via processFileContent,
then dispatches every rule in configured order for each flag, and the entry
stored for each requested flag is the stable first-occurrence deduplication
of the concatenation of the per-rule outputs in rule order. -/
theorem generateAliases_ok_entries (env : Env) (flags : List String) (rules : List Alias)
    (dir : String) (m : List (String × List String))
    (h : GenerateAliases env flags rules dir = .ok m) :
    ∃ cache, processFileContent env rules dir = .ok cache ∧
      ∀ flag ∈ flags, ∃ outs, ruleOutputs env flag dir cache rules = .ok outs ∧
        lookupMap m flag = some (Dedupe outs.flatten) := by
  unfold GenerateAliases at h
  cases hp : processFileContent env rules dir with
  | err e => rw [hp] at h; exact absurd h (by simp)
  | goPanic s => rw [hp] at h; exact absurd h (by simp)
  | ok cache =>
    rw [hp] at h
    dsimp only at h
    refine ⟨cache, rfl, fun flag hflag => ?_⟩
    exact genLoop_entry env rules dir cache flags [] m h (fun _ => Or.inl rfl) flag
      (Or.inl hflag)

/-- Witness for C1 at a concrete input: duplicate literal entries collapse
once, in first-occurrence order, followed by the camelCase output. -/
theorem generateAliases_ok_entries_witness :
    ∃ cache, processFileContent envC1 rulesC1 "." = .ok cache ∧
      ∀ flag ∈ ["f"], ∃ outs, ruleOutputs envC1 flag "." cache rulesC1 = .ok outs ∧
        lookupMap mC1 flag = some (Dedupe outs.flatten) :=
  generateAliases_ok_entries envC1 ["f"] rulesC1 "." mC1 (by decide)

/-- C2: every successful GenerateAliases result has no duplicate flag keys,
has an entry exactly for the requested flags, and none of its alias lists
contains a duplicate string. -/
theorem generateAliases_map_invariants (env : Env) (flags : List String)
    (rules : List Alias) (dir : String) (m : List (String × List String))
    (h : GenerateAliases env flags rules dir = .ok m) :
    (m.map Prod.fst).Nodup ∧
    (∀ flag, (lookupMap m flag).isSome = true ↔ flag ∈ flags) ∧
    (∀ flag xs, lookupMap m flag = some xs → xs.Nodup) := by
  unfold GenerateAliases at h
  cases hp : processFileContent env rules dir with
  | err e => rw [hp] at h; exact absurd h (by simp)
  | goPanic s => rw [hp] at h; exact absurd h (by simp)
  | ok cache =>
    rw [hp] at h
    dsimp only at h
    refine ⟨genLoop_keys_nodup env rules dir cache flags [] m h List.nodup_nil,
      fun flag => ?_, ?_⟩
    · rw [genLoop_isSome env rules dir cache flags [] m h flag]
      constructor
      · rintro (h1 | h1)
        · exact h1
        · exact absurd h1 (by simp [lookupMap])
      · exact Or.inl
    · exact genLoop_values_nodup env rules dir cache flags [] m h
        (fun flag xs hlk => absurd hlk (by simp [lookupMap]))

/-- Witness for C2 at a concrete input. -/
theorem generateAliases_map_invariants_witness :
    (mC1.map Prod.fst).Nodup ∧
    (∀ flag, (lookupMap mC1 flag).isSome = true ↔ flag ∈ ["f"]) ∧
    (∀ flag xs, lookupMap mC1 flag = some xs → xs.Nodup) :=
  generateAliases_map_invariants envC1 ["f"] rulesC1 "." mC1 (by decide)

/-- Environment whose glob finds a file that does not exist, so that the
cache build fails. -/
def envC3 : Env :=
  { envZero with glob := fun _ _ => Except.ok ["x.txt"], fileExists := fun _ => false }

/-- Single file-pattern rule used with envC3. -/
def rulesC3 : List Alias := [{ type := "file-pattern", paths := ["g"], patterns := [] }]

/-- C3: GenerateAliases is fail-fast.  A cache-build error is returned as is
for the whole call; a successful call implies every per-(flag, rule) dispatch
succeeded (so no mapping is ever returned past a failed dispatch); and an
error returned after a successful cache build is the error of one of the
per-(flag, rule) dispatches.  The returned mapping is absent on every error
path by the shape of the result type. -/
theorem generateAliases_fail_fast (env : Env) (flags : List String) (rules : List Alias)
    (dir : String) :
    (∀ e, processFileContent env rules dir = .err e →
      GenerateAliases env flags rules dir = .err e) ∧
    (∀ cache m, processFileContent env rules dir = .ok cache →
      GenerateAliases env flags rules dir = .ok m →
      ∀ flag ∈ flags, ∀ a ∈ rules, ∃ xs, generateAlias env a flag dir cache = .ok xs) ∧
    (∀ cache e, processFileContent env rules dir = .ok cache →
      GenerateAliases env flags rules dir = .err e →
      ∃ flag ∈ flags, ∃ a ∈ rules, generateAlias env a flag dir cache = .err e) := by
  refine ⟨fun e he => ?_, fun cache m hp h flag hflag a ha => ?_, fun cache e hp h => ?_⟩
  · unfold GenerateAliases
    rw [he]
  · unfold GenerateAliases at h
    rw [hp] at h
    dsimp only at h
    obtain ⟨outs, houts, _⟩ := genLoop_entry env rules dir cache flags [] m h
      (fun _ => Or.inl rfl) flag (Or.inl hflag)
    exact ruleOutputs_ok_each env flag dir cache rules outs houts a ha
  · unfold GenerateAliases at h
    rw [hp] at h
    dsimp only at h
    exact genLoop_err_exists env rules dir cache flags [] e h

/-- Witness for C3 at a concrete input: a missing file aborts the whole call
with the cache-build error. -/
theorem generateAliases_fail_fast_witness :
    GenerateAliases envC3 ["f"] rulesC3 "." = .err (.missingFile "0" "./x.txt") :=
  (generateAliases_fail_fast envC3 ["f"] rulesC3 ".").1 (.missingFile "0" "./x.txt") (by decide)

/-- Environment whose regex compiler rejects every pattern, modelling a
syntactically invalid template. -/
def envC4 : Env := { envZero with regexCompile := fun _ => none }

/-- File-pattern rule with an invalid regex template. -/
def ruleC4 : Alias := { type := "file-pattern", patterns := ["("] }

/-- C4 counterexample: with an invalid regex template the resolution call
does not return a pattern-compilation error value to the caller; it aborts
with the regexp.MustCompile runtime panic (alias.go:95), a different failure
mode from every returned error. -/
theorem filepattern_bad_regex_counterexample :
    GenerateAliases envC4 ["f"] [ruleC4] "." =
      .goPanic "regexp: Compile: error parsing regexp" := by decide

/-- C4 (amended): a file-pattern rule whose regex template is syntactically
invalid after placeholder substitution makes the resolution call abort with
the panic raised by regexp.MustCompile — terminal for the whole call, but a
process abort rather than an error value returned to the caller. -/
theorem filepattern_bad_regex_panics (env : Env) (a : Alias) (flag dir : String)
    (cache : List (String × String)) (flags : List String) (rules : List Alias)
    (h1 : canonicalType a.type = options.FilePattern)
    (h2 : processFileContent env (a :: rules) dir = .ok cache)
    (h3 : ∃ buf, concatContents env dir cache "" a.paths = .ok buf)
    (h4 : ∃ p ∈ a.patterns, env.regexCompile (replaceFlagKey flag p) = none) :
    ∃ s, GenerateAliases env (flag :: flags) (a :: rules) dir = .goPanic s := by
  obtain ⟨buf, hbuf⟩ := h3
  obtain ⟨s, hs⟩ := extractAliases_panics env flag buf a.patterns [] h4
  have hga : generateAlias env a flag dir cache = .goPanic s := by
    rw [generateAlias_filePattern env a flag dir cache h1, hbuf]
    exact hs
  refine ⟨s, ?_⟩
  unfold GenerateAliases
  rw [h2]
  dsimp only
  rw [genLoop_cons, dispatchRules_cons, hga]

/-- Witness for the amended C4 at a concrete input. -/
theorem filepattern_bad_regex_panics_witness :
    ∃ s, GenerateAliases envC4 ["f"] [ruleC4] "." = .goPanic s :=
  filepattern_bad_regex_panics envC4 ruleC4 "f" "." [] [] [] (by decide) (by decide)
    ⟨"", by decide⟩ ⟨"(", by decide, rfl⟩

/-- C5: for a file-pattern rule whose buffer concatenation succeeds and whose
substituted templates all compile, the rule's output is exactly the capture
groups: every match with at least one capture group contributes all of its
capture groups and never the whole match, in match order then pattern order,
and a template without capture groups contributes nothing even when it
matches. -/
theorem filepattern_capture_groups (env : Env) (a : Alias) (flag dir : String)
    (cache : List (String × String)) (buf : String)
    (h1 : canonicalType a.type = options.FilePattern)
    (h2 : concatContents env dir cache "" a.paths = .ok buf)
    (h3 : ∀ p ∈ a.patterns, (env.regexCompile (replaceFlagKey flag p)).isSome = true) :
    generateAlias env a flag dir cache =
      .ok (captureGroupsSpec (a.patterns.map fun p => matchesFor env flag buf p)) := by
  rw [generateAlias_filePattern env a flag dir cache h1, h2]
  dsimp only
  rw [extractAliases_ok env flag buf a.patterns [] h3, List.nil_append]

/-- Environment for the capture-group fixture: the substituted template gx
yields one match with two capture groups and one match with none; every
other pattern yields a whole match without capture groups. -/
def regexC5 (p : String) : Option (String → List (List String)) :=
  if p = "gx" then some (fun b => if b = "" then [["m1", "g1", "g2"], ["m2"]] else [])
  else some (fun _ => [["whole"]])

/-- Capture-group fixture environment built on regexC5. -/
def envC5 : Env := { envZero with regexCompile := regexC5 }

/-- File-pattern rule for the capture-group fixture: one template with the
placeholder and capture groups, one group-free template that still matches. -/
def ruleC5 : Alias := { type := "file-pattern", patterns := ["gFLAG_KEY", "nog"] }

/-- Witness for C5 at a concrete input: only the two capture groups are
collected; the group-free match m2 and the group-free template contribute
nothing, and whole matches are never collected. -/
theorem filepattern_capture_groups_witness :
    generateAlias envC5 ruleC5 "x" "." [] =
      .ok (captureGroupsSpec (ruleC5.patterns.map fun p => matchesFor envC5 "x" "" p)) ∧
    captureGroupsSpec (ruleC5.patterns.map fun p => matchesFor envC5 "x" "" p) =
      ["g1", "g2"] :=
  ⟨filepattern_capture_groups envC5 ruleC5 "x" "." [] "" (by decide) (by decide) (by decide),
    by decide⟩

/-- C6: for a file-pattern rule whose globs all succeed, the rule first
builds one buffer — per glob pattern, in glob-match order, without
deduplication at this stage (a path matched twice repeats its content), with
missing or empty cache entries contributing nothing — and then applies the
templates to that whole concatenation, so a match may span the boundary
between two files' contents. -/
theorem filepattern_concat_buffer (env : Env) (a : Alias) (flag dir : String)
    (cache : List (String × String))
    (h1 : canonicalType a.type = options.FilePattern)
    (h2 : ∀ g ∈ a.paths, ∃ ms, env.glob dir g = Except.ok ms) :
    generateAlias env a flag dir cache =
      extractAliases env flag (concatBufferSpec env dir cache a.paths) [] a.patterns := by
  rw [generateAlias_filePattern env a flag dir cache h1]
  rw [concatContents_eq env dir cache a.paths "" h2, empty_strAppend]

/-- Environment for the concatenation fixture: two globs with one shared
match, and a regex oracle that returns the buffer it was run on as a capture
group, exposing the exact concatenation. -/
def envC6 : Env :=
  { envZero with
    glob := fun _ g =>
      if g = "g1" then Except.ok ["a", "b"]
      else if g = "g2" then Except.ok ["b"] else Except.ok [],
    regexCompile := fun _ => some fun b => [["m", b]] }

/-- File-pattern rule for the concatenation fixture. -/
def ruleC6 : Alias := { type := "file-pattern", paths := ["g1", "g2"], patterns := ["t"] }

/-- Cache for the concatenation fixture. -/
def cacheC6 : List (String × String) := [("./a", "AA"), ("./b", "BB")]

/-- Witness for C6 at a concrete input: the glob overlap repeats BB, the
whole buffer AABBBB is matched at once, and the boundary-spanning capture is
returned. -/
theorem filepattern_concat_buffer_witness :
    generateAlias envC6 ruleC6 "f" "." cacheC6 =
      extractAliases envC6 "f" (concatBufferSpec envC6 "." cacheC6 ruleC6.paths) []
        ruleC6.patterns ∧
    concatBufferSpec envC6 "." cacheC6 ruleC6.paths = "AABBBB" ∧
    generateAlias envC6 ruleC6 "f" "." cacheC6 = .ok ["AABBBB"] :=
  ⟨filepattern_concat_buffer envC6 ruleC6 "f" "." cacheC6 (by decide)
      (by
        intro g hg
        rcases List.mem_cons.mp hg with h | h
        · subst h; exact ⟨["a", "b"], rfl⟩
        rcases List.mem_cons.mp h with h1 | h1
        · subst h1; exact ⟨["b"], rfl⟩
        · exact absurd h1 (List.not_mem_nil g)),
    by decide, by decide⟩

/-- C7: during cache construction each distinct absolute path is passed to
the existence check and file read at most once across all file-pattern rules
(the ghost trace of read paths has no duplicates and equals the cache's key
list), the instrumented build agrees with processFileContent, and the cache
stores for each path exactly the content the single read returned. -/
theorem processFileContent_reads_once (env : Env) (aliases : List Alias) (dir : String)
    (cache : List (String × String)) (tr : List String)
    (h : processFileContentTraced env aliases dir = .ok (cache, tr)) :
    processFileContent env aliases dir = .ok cache ∧ tr = cache.map Prod.fst ∧
      tr.Nodup ∧ ∀ p d, (p, d) ∈ cache → env.readFile p = .ok d := by
  obtain ⟨h1, h2, h3, h4⟩ := buildCacheTraced_spec env dir aliases 0 [] [] cache tr h rfl
    List.nodup_nil (fun p d hpd => absurd hpd (List.not_mem_nil (p, d)))
  exact ⟨h1, h2, h2 ▸ h3, h4⟩

/-- Environment for the single-read fixture: every glob resolves to the same
existing readable file. -/
def envC7 : Env :=
  { envZero with
    glob := fun _ _ => Except.ok ["shared.txt"],
    fileExists := fun _ => true,
    readFile := fun _ => Except.ok "DATA" }

/-- Two file-pattern rules whose globs hit the same file. -/
def rulesC7 : List Alias :=
  [{ type := "file-pattern", paths := ["g1"], patterns := [] },
   { type := "file-pattern", paths := ["g2"], patterns := [] }]

/-- Witness for C7 at a concrete input: two rules referencing the same file
produce exactly one traced read. -/
theorem processFileContent_reads_once_witness :
    processFileContent envC7 rulesC7 "." = .ok [("./shared.txt", "DATA")] ∧
    ["./shared.txt"] = [("./shared.txt", "DATA")].map Prod.fst ∧
    (["./shared.txt"] : List String).Nodup ∧
    ∀ p d, (p, d) ∈ [("./shared.txt", "DATA")] → envC7.readFile p = .ok d :=
  processFileContent_reads_once envC7 rulesC7 "." [("./shared.txt", "DATA")]
    ["./shared.txt"] (by decide)

def runCommandC8 (t : Option Int) (nm : String) (args : List String)
    (d stdin : String) : Except String String :=
  if nm = "prog" && args == ["a1", "a2"] && d = "base" && stdin = "fk" && t == some 5
  then Except.ok "json" else Except.error "wrong invocation"

/-- Command fixture environment: the process oracle only succeeds on the
exact expected invocation, and its output decodes to two aliases. -/
def envC8 : Env :=
  { envZero with
    runCommand := runCommandC8,
    jsonUnmarshalStringList := fun s =>
      if s = "json" then Except.ok ["u", "v"] else Except.error "bad" }

/-- Command rule fixture. -/
def ruleC8 : Alias := { type := "command", command := some "prog a1 a2", timeout := some 5 }

/-- Witness for C8 at a concrete input: the oracle demands exactly the
space-split argument vector, the base directory and the flag key on standard
input, and the call succeeds with the decoded output. -/
theorem generateAlias_command_witness :
    generateAlias envC8 ruleC8 "fk" "base" [] =
      commandInvokerSpec envC8 ruleC8.timeout "prog a1 a2" "fk" "base" ∧
    generateAlias envC8 ruleC8 "fk" "base" [] = .ok ["u", "v"] :=
  ⟨generateAlias_command envC8 ruleC8 "fk" "base" [] "prog a1 a2" (by decide) rfl,
    by decide⟩

/-- C9: a rule whose canonical type is none of the nine recognized types is
silently skipped by generateAlias — it returns the empty alias list and no
error, contributing nothing to the flag's aliases. -/
theorem generateAlias_unknown_type (env : Env) (a : Alias) (flag dir : String)
    (cache : List (String × String))
    (h1 : canonicalType a.type ≠ options.Literal)
    (h2 : canonicalType a.type ≠ options.CamelCase)
    (h3 : canonicalType a.type ≠ options.PascalCase)
    (h4 : canonicalType a.type ≠ options.SnakeCase)
    (h5 : canonicalType a.type ≠ options.UpperSnakeCase)
    (h6 : canonicalType a.type ≠ options.KebabCase)
    (h7 : canonicalType a.type ≠ options.DotCase)
    (h8 : canonicalType a.type ≠ options.FilePattern)
    (h9 : canonicalType a.type ≠ options.Command) :
    generateAlias env a flag dir cache = .ok [] := by
  unfold generateAlias
  rw [if_neg h1, if_neg h2, if_neg h3, if_neg h4, if_neg h5, if_neg h6, if_neg h7,
    if_neg h8, if_neg h9]

/-- Rule of an unrecognized type. -/
def ruleC9 : Alias := { type := "mystery" }

/-- Witness for C9 at a concrete input. -/
theorem generateAlias_unknown_type_witness :
    generateAlias envZero ruleC9 "f" "." [] = .ok [] :=
  generateAlias_unknown_type envZero ruleC9 "f" "." [] (by decide) (by decide) (by decide)
    (by decide) (by decide) (by decide) (by decide) (by decide) (by decide)

/-- Command rule with an absent command string. -/
def ruleC10 : Alias := { type := "command" }

/-- C10 counterexample: GenerateAliases called with an empty flag list
returns normally (an ok mapping) even though the rule list contains a
command-type rule with an absent command string, so a normal return does not
require the claimed precondition. -/
theorem command_nil_counterexample :
    GenerateAliases envZero [] [ruleC10] "." = .ok [] ∧
    canonicalType ruleC10.type = options.Command ∧ ruleC10.command = none :=
  ⟨by decide, by decide, rfl⟩

/-- C10 (amended): whenever a command-type rule with an absent command string
is actually dispatched — at least one flag, the rule first and the cache
build successful — the unconditional dereference of the command field is
reached before any process is started: generateAlias aborts with the Go nil
pointer dereference panic rather than any returned error, and GenerateAliases
propagates that panic instead of returning a mapping or an error. -/
theorem command_nil_deref (env : Env) (a : Alias) (flag dir : String)
    (cache : List (String × String)) (flags : List String) (rules : List Alias)
    (h1 : canonicalType a.type = options.Command) (h2 : a.command = none)
    (h3 : processFileContent env (a :: rules) dir = .ok cache) :
    generateAlias env a flag dir cache =
      .goPanic "runtime error: invalid memory address or nil pointer dereference" ∧
    GenerateAliases env (flag :: flags) (a :: rules) dir =
      .goPanic "runtime error: invalid memory address or nil pointer dereference" := by
  have hga : generateAlias env a flag dir cache =
      .goPanic "runtime error: invalid memory address or nil pointer dereference" := by
    unfold generateAlias
    rw [h1]
    rw [if_neg (by decide), if_neg (by decide), if_neg (by decide), if_neg (by decide),
      if_neg (by decide), if_neg (by decide), if_neg (by decide), if_neg (by decide),
      if_pos rfl, h2]
  refine ⟨hga, ?_⟩
  unfold GenerateAliases
  rw [h3]
  dsimp only
  rw [genLoop_cons, dispatchRules_cons, hga]

/-- Witness for the amended C10 at a concrete input. -/
theorem command_nil_deref_witness :
    generateAlias envZero ruleC10 "f" "." [] =
      .goPanic "runtime error: invalid memory address or nil pointer dereference" ∧
    GenerateAliases envZero ["f"] [ruleC10] "." =
      .goPanic "runtime error: invalid memory address or nil pointer dereference" :=
  command_nil_deref envZero ruleC10 "f" "." [] [] [] (by decide) rfl (by decide)
